import Mathlib

/-!
# Verification of `vdirsyncer/utils/__init__.py`

A shallow embedding of the mtime-based etag scheme (`get_etag_from_file`,
`get_etag_from_fileobject`) together with the sequence deduplication helper
`uniq` and the memoizing `cached_property` descriptor.

Modelling conventions:

* Filesystem modification timestamps are nonnegative and exact.  A Python
  float timestamp (`st_mtime`, fractional seconds) is modelled as an exact
  fixed-point value: a natural number counting nanoseconds, whose real value
  is that number divided by `10^9`.  A nanosecond timestamp (`st_mtime_ns`)
  is the raw integer count.  Exact arithmetic stands in for IEEE doubles;
  all concrete inputs used below are exactly representable as doubles.
* Python's `'{:.9f}'.format` applied to an exactly representable value
  renders the integer part in decimal followed by exactly nine fractional
  decimal digits.  Applied to an `int` it renders the integer itself with
  nine zero fractional digits.
* The filesystem (`os.stat`) is a map from paths to either stat metadata or
  an `OSError`; `stat` is a pure metadata read.  Effectful primitives
  (`flush`, `fsync`, `stat`) additionally emit events, so that the order of
  operations performed by `get_etag_from_fileobject` is observable.
-/

namespace VdirsyncerUtils

/-- One decimal digit rendered as a character. -/
def digitChar : Nat → Char
  | 0 => '0' | 1 => '1' | 2 => '2' | 3 => '3' | 4 => '4'
  | 5 => '5' | 6 => '6' | 7 => '7' | 8 => '8' | _ => '9'

/-- Fuelled loop of the decimal renderer; the fuel only bounds recursion
depth (one unit per digit) and `natToDigits` always supplies enough. -/
def natToDigitsCore : Nat → Nat → List Char → List Char
  | 0, _, acc => acc
  | fuel + 1, n, acc =>
    if n < 10 then digitChar n :: acc
    else natToDigitsCore fuel (n / 10) (digitChar (n % 10) :: acc)

/-- Decimal rendering of a natural number, most significant digit first. -/
def natToDigits (n : Nat) : List Char :=
  natToDigitsCore (n + 1) n []

/-- Left-pad a digit list with `'0'` to width `w`. -/
def zeroPad (w : Nat) (l : List Char) : List Char :=
  List.replicate (w - l.length) '0' ++ l

/-- The value `scaled / 10^9` rendered with exactly nine digits after the
decimal point, as Python's `'{:.9f}'.format` renders it on an exactly
representable nonnegative value. -/
def formatFixed9 (scaled : Nat) : String :=
  ⟨natToDigits (scaled / 10 ^ 9) ++ '.' :: zeroPad 9 (natToDigits (scaled % 10 ^ 9))⟩

/-- A Python number that can appear in the `mtime` variable of
`get_etag_from_file`: either the integer `st_mtime_ns` or the float
`st_mtime` (modelled exactly, scaled by `10^9`). -/
inductive PyNum where
  | pyInt (n : Nat)
  | pyFloat (scaled : Nat)
deriving DecidableEq, Repr

/-- `'{:.9f}'.format` on either kind of number.  An `int` `n` has numeric
value `n`, i.e. scaled value `n * 10^9`. -/
def pyFormatFixed9 : PyNum → String
  | .pyInt n => formatFixed9 (n * 10 ^ 9)
  | .pyFloat s => formatFixed9 s

/-- Result of `os.stat`: `st_mtime_ns` is the optional nanosecond-resolution
modification time, `st_mtime` the float modification time in seconds
(stored exactly, scaled by `10^9`). -/
structure StatResult where
  st_mtime_ns : Option Nat
  st_mtime : Nat
deriving DecidableEq, Repr

/-- Errors raised by filesystem metadata access. -/
inductive OSErr where
  | fileNotFound (path : String)
  | accessDenied (path : String)
deriving DecidableEq, Repr

/-- Events emitted by the effectful primitives, recording what was done. -/
inductive Event where
  | flushEv (fd : Nat)
  | fsyncEv (fd : Nat)
  | statEv (path : String)
deriving DecidableEq, Repr

/-- An open Python file object: its `.name` path, its `.fileno()` descriptor,
and whether it still holds in-process buffered (unflushed) data. -/
structure OpenFile where
  name : String
  fileno : Nat
  buffered : Bool
deriving DecidableEq

/-- The world visible to this module: stat metadata per path, the current
clock (nanoseconds), and the set of file descriptors that have been fully
synchronized to stable storage. -/
structure World where
  fs : String → Except OSErr StatResult
  clock : Nat
  durable : List Nat

/-- Model of `os.stat(p)`: a pure metadata read; it changes nothing and emits a
`statEv` event. -/
def os_stat (w : World) (p : String) : World × Event × Except OSErr StatResult :=
  (w, .statEv p, w.fs p)

/-- Model of `f.flush()`: in-process buffered data reaches the operating system, so
the file's modification time becomes visible to `stat` (set at the current
clock, identical in both representations). -/
def file_flush (w : World) (f : OpenFile) : World × OpenFile × Event :=
  if f.buffered then
    ({ w with fs := fun p => if p = f.name then .ok ⟨some w.clock, w.clock⟩ else w.fs p },
     { f with buffered := false }, .flushEv f.fileno)
  else (w, f, .flushEv f.fileno)

/-- Model of `os.fsync(fd)`: force the descriptor's data to stable storage.  The
metadata visible to `stat` is unchanged; durability is recorded. -/
def os_fsync (w : World) (fd : Nat) : World × Event :=
  ({ w with durable := fd :: w.durable }, .fsyncEv fd)

/-- Lines 51–55 of the source: pick `st_mtime_ns` when present, else
`st_mtime`, and format the chosen value with `'{:.9f}'`. -/
def etag_of_stat (stat : StatResult) : String :=
  let mtime : PyNum :=
    match stat.st_mtime_ns with
    | some n => .pyInt n
    | none => .pyFloat stat.st_mtime
  pyFormatFixed9 mtime

/-- Embedding of `get_etag_from_file(fpath)`: stat the path and derive the etag; a stat
failure propagates unmodified. -/
def get_etag_from_file (w : World) (fpath : String) :
    World × List Event × Except OSErr String :=
  match os_stat w fpath with
  | (w', ev, .error e) => (w', [ev], .error e)
  | (w', ev, .ok stat) => (w', [ev], .ok (etag_of_stat stat))

/-- Embedding of `get_etag_from_fileobject(f)`: flush, fsync only on win32, then
`get_etag_from_file(f.name)`. -/
def get_etag_from_fileobject (platform : String) (w : World) (f : OpenFile) :
    World × OpenFile × List Event × Except OSErr String :=
  let (w1, f1, ev1) := file_flush w f
  let (w2, evs2) :=
    if platform = "win32" then
      let (w2, ev2) := os_fsync w1 f1.fileno
      (w2, [ev2])
    else (w1, [])
  let (w3, evs3, r) := get_etag_from_file w2 f1.name
  (w3, f1, ev1 :: evs2 ++ evs3, r)

/-- The loop of `uniq`, carrying the seen-set `d` (membership is all the
source uses, so a list of seen elements models the Python `set`). -/
def uniqAux [DecidableEq α] (d : List α) : List α → List α
  | [] => []
  | x :: xs => if x ∈ d then uniqAux d xs else x :: uniqAux (x :: d) xs

/-- Embedding of `uniq(s)`: filter duplicates while preserving order (the generator's
yields, collected in order). -/
def uniq [DecidableEq α] (s : List α) : List α :=
  uniqAux [] s

/-- A value stored in (or returned into) an instance `__dict__` slot used by
`cached_property`: either the shared `_missing` sentinel object or an
ordinary value. -/
inductive StoredVal (β : Type u) where
  | sentinel
  | value (b : β)
deriving DecidableEq, Repr

/-- An instance `__dict__`: attribute name to stored value, `none` when the
attribute is absent. -/
def InstanceDict (β : Type u) : Type u :=
  String → Option (StoredVal β)

/-- Store an attribute in an instance `__dict__`. -/
def dictInsert (d : InstanceDict β) (k : String) (v : StoredVal β) : InstanceDict β :=
  fun k' => if k' = k then some v else d k'

/-- The `cached_property` descriptor: the attribute name it caches under and
the wrapped function (whose Python result may itself be the `_missing`
object, hence `StoredVal`). -/
structure CachedProperty (α : Type u) (β : Type v) where
  name : String
  func : α → StoredVal β

/-- Embedding of `cached_property.__get__` with `obj ≠ None`: look the name up in the
instance `__dict__` with `_missing` as default; on `_missing`, call the
wrapped function and store its result.  Returns the new `__dict__`, the
returned value, and whether the wrapped function was invoked. -/
def cpGet (cp : CachedProperty α β) (obj : α) (d : InstanceDict β) :
    InstanceDict β × StoredVal β × Bool :=
  let value := (d cp.name).getD .sentinel
  match value with
  | .sentinel =>
    let v := cp.func obj
    (dictInsert d cp.name v, v, true)
  | .value b => (d, .value b, false)

/-- Repeated access: `n` successive attribute accesses through `cpGet`, returning the final
`__dict__` and the total number of wrapped-function invocations. -/
def cpAccessN (cp : CachedProperty α β) (obj : α) : Nat → InstanceDict β → InstanceDict β × Nat
  | 0, d => (d, 0)
  | n + 1, d =>
    let (d', _, c) := cpGet cp obj d
    let (d'', k) := cpAccessN cp obj n d'
    (d'', (if c then 1 else 0) + k)

/-- Shape of a change token: a nonempty run of decimal digits, a decimal
point, and exactly nine decimal digits. -/
def isTokenShape (s : String) : Prop :=
  ∃ a b : List Char,
    s.data = a ++ '.' :: b ∧ a ≠ [] ∧ (∀ c ∈ a, c.isDigit = true) ∧
    b.length = 9 ∧ (∀ c ∈ b, c.isDigit = true)

/-- Extract just the etag result of `get_etag_from_file` from the stat
outcome of the queried path. -/
def etagOfStatResult : Except OSErr StatResult → Except OSErr String
  | .error e => .error e
  | .ok stat => .ok (etag_of_stat stat)

theorem digitChar_isDigit (d : Nat) : (digitChar d).isDigit = true := by
  unfold digitChar
  split <;> decide

theorem natToDigitsCore_peel (fuel : Nat) :
    ∀ (n : Nat) (acc : List Char), ∃ l, natToDigitsCore (fuel + 1) n acc = l ++ acc ∧
      l ≠ [] ∧ (∀ c ∈ l, c.isDigit = true) := by
  induction fuel with
  | zero =>
    intro n acc
    by_cases h : n < 10
    · exact ⟨[digitChar n], by simp [natToDigitsCore, h], by simp,
        by simp [digitChar_isDigit]⟩
    · exact ⟨[digitChar (n % 10)], by simp [natToDigitsCore, h], by simp,
        by simp [digitChar_isDigit]⟩
  | succ fuel ih =>
    intro n acc
    by_cases h : n < 10
    · exact ⟨[digitChar n], by simp [natToDigitsCore, h], by simp,
        by simp [digitChar_isDigit]⟩
    · obtain ⟨l, hl, hne, hdig⟩ := ih (n / 10) (digitChar (n % 10) :: acc)
      refine ⟨l ++ [digitChar (n % 10)], ?_, by simp, ?_⟩
      · rw [show natToDigitsCore (fuel + 1 + 1) n acc
            = natToDigitsCore (fuel + 1) (n / 10) (digitChar (n % 10) :: acc) from by
              simp [natToDigitsCore, h], hl]
        simp
      · intro c hc
        rcases List.mem_append.mp hc with h1 | h1
        · exact hdig c h1
        · simp at h1; subst h1; exact digitChar_isDigit _

theorem natToDigits_ne_nil (n : Nat) : natToDigits n ≠ [] := by
  obtain ⟨l, hl, hne, -⟩ := natToDigitsCore_peel n n []
  unfold natToDigits
  rw [hl]
  simpa using hne

theorem natToDigits_all_isDigit (n : Nat) : ∀ c ∈ natToDigits n, c.isDigit = true := by
  obtain ⟨l, hl, -, hdig⟩ := natToDigitsCore_peel n n []
  unfold natToDigits
  rw [hl]
  simpa using hdig

theorem natToDigitsCore_length_le (k : Nat) :
    ∀ (fuel n : Nat) (acc : List Char), n < 10 ^ (k + 1) →
      (natToDigitsCore fuel n acc).length ≤ acc.length + (k + 1) := by
  induction k with
  | zero =>
    intro fuel n acc h
    match fuel with
    | 0 => simp [natToDigitsCore]
    | fuel + 1 =>
      have h10 : n < 10 := by simpa using h
      simp [natToDigitsCore, h10]
  | succ k ih =>
    intro fuel n acc h
    match fuel with
    | 0 => simp [natToDigitsCore]
    | fuel + 1 =>
      by_cases h10 : n < 10
      · simp [natToDigitsCore, h10]
      · rw [show natToDigitsCore (fuel + 1) n acc
            = natToDigitsCore fuel (n / 10) (digitChar (n % 10) :: acc) from by
              simp [natToDigitsCore, h10]]
        have hdiv : n / 10 < 10 ^ (k + 1) := by
          apply Nat.div_lt_of_lt_mul
          calc n < 10 ^ (k + 1 + 1) := h
            _ = 10 * 10 ^ (k + 1) := by ring
        have := ih fuel (n / 10) (digitChar (n % 10) :: acc) hdiv
        simp at this ⊢
        omega

theorem natToDigits_length_le (k n : Nat) (h : n < 10 ^ (k + 1)) :
    (natToDigits n).length ≤ k + 1 := by
  have := natToDigitsCore_length_le k (n + 1) n [] h
  simpa [natToDigits] using this

theorem zeroPad_length (w : Nat) (l : List Char) (h : l.length ≤ w) :
    (zeroPad w l).length = w := by
  simp [zeroPad]
  omega

theorem zeroPad_all_isDigit (w : Nat) (l : List Char)
    (h : ∀ c ∈ l, c.isDigit = true) : ∀ c ∈ zeroPad w l, c.isDigit = true := by
  intro c hc
  rcases List.mem_append.mp hc with h1 | h1
  · rw [List.eq_of_mem_replicate h1]; decide
  · exact h c h1

theorem formatFixed9_isTokenShape (scaled : Nat) : isTokenShape (formatFixed9 scaled) := by
  refine ⟨natToDigits (scaled / 10 ^ 9), zeroPad 9 (natToDigits (scaled % 10 ^ 9)),
    rfl, natToDigits_ne_nil _, natToDigits_all_isDigit _, ?_, ?_⟩
  · exact zeroPad_length 9 _ (natToDigits_length_le 8 _ (Nat.mod_lt _ (by norm_num)))
  · exact zeroPad_all_isDigit _ _ (natToDigits_all_isDigit _)

theorem etag_of_stat_isTokenShape (stat : StatResult) : isTokenShape (etag_of_stat stat) := by
  unfold etag_of_stat pyFormatFixed9
  cases stat.st_mtime_ns <;> simp <;> exact formatFixed9_isTokenShape _

theorem get_etag_from_file_eq (w : World) (p : String) :
    get_etag_from_file w p = (w, [Event.statEv p], etagOfStatResult (w.fs p)) := by
  unfold get_etag_from_file os_stat etagOfStatResult
  cases w.fs p <;> rfl

theorem file_flush_keeps_name (w : World) (f : OpenFile) :
    (file_flush w f).2.1.name = f.name := by
  unfold file_flush
  split <;> rfl

theorem file_flush_keeps_fileno (w : World) (f : OpenFile) :
    (file_flush w f).2.1.fileno = f.fileno := by
  unfold file_flush
  split <;> rfl

theorem file_flush_event (w : World) (f : OpenFile) :
    (file_flush w f).2.2 = Event.flushEv f.fileno := by
  unfold file_flush
  split <;> rfl

theorem get_etag_from_fileobject_eq (platform : String) (w : World) (f : OpenFile) :
    get_etag_from_fileobject platform w f =
      ((if platform = "win32"
          then (os_fsync (file_flush w f).1 f.fileno).1
          else (file_flush w f).1),
       (file_flush w f).2.1,
       Event.flushEv f.fileno ::
         ((if platform = "win32" then [Event.fsyncEv f.fileno] else [])
           ++ [Event.statEv f.name]),
       etagOfStatResult (((file_flush w f).1).fs f.name)) := by
  have hn := file_flush_keeps_name w f
  have hf := file_flush_keeps_fileno w f
  have he := file_flush_event w f
  unfold get_etag_from_fileobject
  rcases hfl : file_flush w f with ⟨w1, f1, ev1⟩
  rw [hfl] at hn hf he
  simp only at hn hf he
  by_cases hp : platform = "win32" <;>
    simp [hp, get_etag_from_file_eq, os_fsync, hn, hf, he]

theorem get_etag_from_fileobject_result (platform : String) (w : World) (f : OpenFile) :
    (get_etag_from_fileobject platform w f).2.2.2 =
      etagOfStatResult (((get_etag_from_fileobject platform w f).1).fs f.name) := by
  rw [get_etag_from_fileobject_eq]
  by_cases hp : platform = "win32" <;> simp [hp, os_fsync]

theorem uniqAux_mem [DecidableEq α] (xs : List α) :
    ∀ (d : List α) (a : α), a ∈ uniqAux d xs ↔ a ∈ xs ∧ a ∉ d := by
  induction xs with
  | nil => intro d a; simp [uniqAux]
  | cons x xs ih =>
    intro d a
    by_cases hx : x ∈ d
    · rw [show uniqAux d (x :: xs) = uniqAux d xs from by simp [uniqAux, hx], ih]
      constructor
      · rintro ⟨h1, h2⟩; exact ⟨List.mem_cons_of_mem _ h1, h2⟩
      · rintro ⟨h1, h2⟩
        rcases List.mem_cons.mp h1 with rfl | h1
        · exact absurd hx h2
        · exact ⟨h1, h2⟩
    · rw [show uniqAux d (x :: xs) = x :: uniqAux (x :: d) xs from by simp [uniqAux, hx]]
      constructor
      · intro h
        rcases List.mem_cons.mp h with rfl | h
        · exact ⟨List.mem_cons_self _ _, hx⟩
        · rcases (ih (x :: d) a).mp h with ⟨h1, h2⟩
          simp at h2
          exact ⟨List.mem_cons_of_mem _ h1, h2.2⟩
      · rintro ⟨h1, h2⟩
        rcases List.mem_cons.mp h1 with rfl | h1
        · exact List.mem_cons_self _ _
        · by_cases hax : a = x
          · subst hax; exact List.mem_cons_self _ _
          · exact List.mem_cons_of_mem _ ((ih (x :: d) a).mpr ⟨h1, by simp [hax, h2]⟩)

theorem uniqAux_sublist [DecidableEq α] (xs : List α) :
    ∀ d : List α, List.Sublist (uniqAux d xs) xs := by
  induction xs with
  | nil => intro d; simp [uniqAux]
  | cons x xs ih =>
    intro d
    by_cases hx : x ∈ d
    · rw [show uniqAux d (x :: xs) = uniqAux d xs from by simp [uniqAux, hx]]
      exact (ih d).cons x
    · rw [show uniqAux d (x :: xs) = x :: uniqAux (x :: d) xs from by simp [uniqAux, hx]]
      exact (ih (x :: d)).cons₂ x

theorem uniqAux_nodup [DecidableEq α] (xs : List α) :
    ∀ d : List α, (uniqAux d xs).Nodup := by
  induction xs with
  | nil => intro d; simp [uniqAux]
  | cons x xs ih =>
    intro d
    by_cases hx : x ∈ d
    · rw [show uniqAux d (x :: xs) = uniqAux d xs from by simp [uniqAux, hx]]
      exact ih d
    · rw [show uniqAux d (x :: xs) = x :: uniqAux (x :: d) xs from by simp [uniqAux, hx]]
      refine List.nodup_cons.mpr ⟨fun hmem => ?_, ih (x :: d)⟩
      rcases (uniqAux_mem xs (x :: d) x).mp hmem with ⟨-, h2⟩
      simp at h2

theorem uniqAux_pairwise_indexOf [DecidableEq α] (xs : List α) :
    ∀ d : List α, (uniqAux d xs).Pairwise fun a b => xs.indexOf a < xs.indexOf b := by
  induction xs with
  | nil => intro d; simp [uniqAux]
  | cons x xs ih =>
    intro d
    by_cases hx : x ∈ d
    · rw [show uniqAux d (x :: xs) = uniqAux d xs from by simp [uniqAux, hx]]
      refine (ih d).imp_of_mem ?_
      intro a b ha hb hab
      have hha := ((uniqAux_mem xs d a).mp ha).2
      have hhb := ((uniqAux_mem xs d b).mp hb).2
      have hax : a ≠ x := fun hc => hha (hc ▸ hx)
      have hbx : b ≠ x := fun hc => hhb (hc ▸ hx)
      rw [List.indexOf_cons_ne _ (Ne.symm hax), List.indexOf_cons_ne _ (Ne.symm hbx)]
      omega
    · rw [show uniqAux d (x :: xs) = x :: uniqAux (x :: d) xs from by simp [uniqAux, hx]]
      refine List.pairwise_cons.mpr ⟨?_, ?_⟩
      · intro b hb
        have hhb := ((uniqAux_mem xs (x :: d) b).mp hb).2
        have hbx : b ≠ x := by simp at hhb; exact hhb.1
        rw [List.indexOf_cons_self, List.indexOf_cons_ne _ (Ne.symm hbx)]
        omega
      · refine (ih (x :: d)).imp_of_mem ?_
        intro a b ha hb hab
        have hha := ((uniqAux_mem xs (x :: d) a).mp ha).2
        have hhb := ((uniqAux_mem xs (x :: d) b).mp hb).2
        have hax : a ≠ x := by simp at hha; exact hha.1
        have hbx : b ≠ x := by simp at hhb; exact hhb.1
        rw [List.indexOf_cons_ne _ (Ne.symm hax), List.indexOf_cons_ne _ (Ne.symm hbx)]
        omega

theorem cpGet_stored (cp : CachedProperty α β) (obj : α) (d : InstanceDict β) (b : β)
    (h : d cp.name = some (.value b)) : cpGet cp obj d = (d, .value b, false) := by
  unfold cpGet
  rw [h]
  rfl

theorem cpGet_missing (cp : CachedProperty α β) (obj : α) (d : InstanceDict β)
    (h : d cp.name = none) :
    cpGet cp obj d = (dictInsert d cp.name (cp.func obj), cp.func obj, true) := by
  unfold cpGet
  rw [h]
  rfl

theorem dictInsert_self (d : InstanceDict β) (k : String) (v : StoredVal β) :
    dictInsert d k v k = some v := by
  simp [dictInsert]

/-- C1 counterexample: for the instant one second after the epoch, expressed
once as the integer nanosecond count `10^9` and once as the equivalent
fractional-seconds value `1.0`, the nanosecond-available branch and the
fractional-seconds fallback branch of `get_etag_from_file` return different
token strings (`"1000000000.000000000"` versus `"1.000000000"`). -/
theorem etag_ns_branch_ne_fallback_at_one_second :
    ¬ ((get_etag_from_file ⟨fun _ => .ok ⟨some 1000000000, 1000000000⟩, 0, []⟩ "x").2.2 =
       (get_etag_from_file ⟨fun _ => .ok ⟨none, 1000000000⟩, 0, []⟩ "x").2.2) := by
  rw [get_etag_from_file_eq, get_etag_from_file_eq]
  simp only [etagOfStatResult, Except.ok.injEq]
  decide

/-- C1 (amended): `get_etag_from_file` formats the selected timestamp value
directly with nine fractional digits and never converts the nanosecond count
to seconds: on a stat carrying nanosecond count `n` it returns the token of
the raw numeric value `n` — the decimal digits of `n` followed by
`".000000000"` — which coincides with the fallback branch's token for a
fractional-seconds timestamp of numeric value `n` (an instant `10^9` times
later), not with the fallback token for the same instant. -/
theorem etag_ns_branch_formats_raw_count (w w' : World) (p p' : String) (n m : Nat)
    (h : w.fs p = .ok ⟨some n, m⟩) (h' : w'.fs p' = .ok ⟨none, n * 10 ^ 9⟩) :
    (get_etag_from_file w p).2.2 = .ok (formatFixed9 (n * 10 ^ 9)) ∧
    formatFixed9 (n * 10 ^ 9) = ⟨natToDigits n ++ '.' :: List.replicate 9 '0'⟩ ∧
    (get_etag_from_file w p).2.2 = (get_etag_from_file w' p').2.2 := by
  rw [get_etag_from_file_eq, get_etag_from_file_eq, h, h']
  refine ⟨rfl, ?_, rfl⟩
  unfold formatFixed9
  rw [Nat.mul_div_cancel n (by norm_num), Nat.mul_mod_left]
  rw [show natToDigits 0 = ['0'] from rfl]
  rw [show zeroPad 9 ['0'] = List.replicate 8 '0' ++ ['0'] from rfl,
    ← List.replicate_succ' 8 '0']

/-- Witness for the amended C1 theorem at nanosecond count 2. -/
theorem etag_ns_branch_formats_raw_count_witness :
    (get_etag_from_file ⟨fun _ => .ok ⟨some 2, 7⟩, 0, []⟩ "p").2.2 =
      .ok (formatFixed9 (2 * 10 ^ 9)) ∧
    formatFixed9 (2 * 10 ^ 9) = ⟨natToDigits 2 ++ '.' :: List.replicate 9 '0'⟩ ∧
    (get_etag_from_file ⟨fun _ => .ok ⟨some 2, 7⟩, 0, []⟩ "p").2.2 =
      (get_etag_from_file ⟨fun _ => .ok ⟨none, 2 * 10 ^ 9⟩, 0, []⟩ "p").2.2 :=
  etag_ns_branch_formats_raw_count _ _ "p" "p" 2 7 rfl rfl

/-- C2: `get_etag_from_fileobject` performs exactly, in order: a flush of the
handle's buffers, then — if and only if the platform is `win32` — an fsync of
the handle's file descriptor, then a stat of the handle's path; and it
returns exactly the result of `get_etag_from_file` on the handle's path in
the post-flush world. -/
theorem get_etag_from_fileobject_steps (platform : String) (w : World) (f : OpenFile) :
    (get_etag_from_fileobject platform w f).2.2.1 =
      Event.flushEv f.fileno ::
        ((if platform = "win32" then [Event.fsyncEv f.fileno] else [])
          ++ [Event.statEv f.name]) ∧
    (get_etag_from_fileobject platform w f).2.2.2 =
      (get_etag_from_file (file_flush w f).1 f.name).2.2 := by
  rw [get_etag_from_fileobject_eq, get_etag_from_file_eq]
  exact ⟨rfl, rfl⟩

/-- C3: on any readable path, `get_etag_from_file` returns a token of the
shape `<digits>.<exactly 9 digits>`, whichever timestamp representation the
stat metadata carries. -/
theorem get_etag_token_shape (w : World) (p : String) (stat : StatResult)
    (h : w.fs p = .ok stat) :
    (get_etag_from_file w p).2.2 = .ok (etag_of_stat stat) ∧
    isTokenShape (etag_of_stat stat) := by
  rw [get_etag_from_file_eq, h]
  exact ⟨rfl, etag_of_stat_isTokenShape stat⟩

/-- Witness for C3 on a nanosecond-carrying stat. -/
theorem get_etag_token_shape_witness :
    (get_etag_from_file ⟨fun _ => .ok ⟨some 3, 5⟩, 0, []⟩ "p").2.2 =
      .ok (etag_of_stat ⟨some 3, 5⟩) ∧
    isTokenShape (etag_of_stat ⟨some 3, 5⟩) :=
  get_etag_token_shape _ "p" ⟨some 3, 5⟩ rfl

/-- C4: the etag uses exactly one timestamp representation: when
`st_mtime_ns` is present the token does not depend on `st_mtime` at all and
equals the formatting of the integer count; only when `st_mtime_ns` is
absent is the token the formatting of the float `st_mtime`. -/
theorem etag_uses_single_representation (n m m' : Nat) :
    etag_of_stat ⟨some n, m⟩ = etag_of_stat ⟨some n, m'⟩ ∧
    etag_of_stat ⟨some n, m⟩ = pyFormatFixed9 (.pyInt n) ∧
    etag_of_stat ⟨none, m⟩ = pyFormatFixed9 (.pyFloat m) :=
  ⟨rfl, rfl, rfl⟩

/-- C5: when stat fails on a path, `get_etag_from_file` propagates exactly
the underlying error value and returns no token. -/
theorem etag_propagates_stat_error (w : World) (p : String) (e : OSErr)
    (h : w.fs p = .error e) :
    (get_etag_from_file w p).2.2 = .error e := by
  rw [get_etag_from_file_eq, h]
  rfl

/-- Witness for C5 on a nonexistent path. -/
theorem etag_propagates_stat_error_witness :
    (get_etag_from_file ⟨fun q => .error (.fileNotFound q), 0, []⟩ "nope").2.2 =
      .error (.fileNotFound "nope") :=
  etag_propagates_stat_error _ "nope" (.fileNotFound "nope") rfl

/-- C6: the token is a deterministic pure function of the stat metadata: two
calls that observe identical modification-time metadata for the path return
byte-identical tokens, whatever else differs between the two worlds. -/
theorem etag_deterministic (w₁ w₂ : World) (p : String)
    (h : w₁.fs p = w₂.fs p) :
    (get_etag_from_file w₁ p).2.2 = (get_etag_from_file w₂ p).2.2 := by
  rw [get_etag_from_file_eq, get_etag_from_file_eq, h]

/-- Witness for C6: two worlds differing in clock and durability agree on
the path's metadata and yield the same token. -/
theorem etag_deterministic_witness :
    (get_etag_from_file ⟨fun _ => .ok ⟨some 9, 9⟩, 0, []⟩ "p").2.2 =
    (get_etag_from_file ⟨fun _ => .ok ⟨some 9, 9⟩, 55, [3]⟩ "p").2.2 :=
  etag_deterministic _ _ "p" rfl

/-- C7: if after the capture the file is moved so that the destination path
carries exactly the metadata the captured file had (moves preserve mtime),
then `get_etag_from_file` on the destination returns the very token
`get_etag_from_fileobject` captured before the move. -/
theorem etag_move_invariance (platform : String) (w : World) (f : OpenFile)
    (w' : World) (dst : String)
    (h : w'.fs dst = ((get_etag_from_fileobject platform w f).1).fs f.name) :
    (get_etag_from_file w' dst).2.2 = (get_etag_from_fileobject platform w f).2.2.2 := by
  rw [get_etag_from_file_eq, get_etag_from_fileobject_result, h]

/-- Witness for C7: capture on a flushed temporary file, then read the token
at the destination of the move. -/
theorem etag_move_invariance_witness :
    (get_etag_from_file ⟨fun _ => .ok ⟨some 42, 42⟩, 6, []⟩ "final").2.2 =
    (get_etag_from_fileobject "linux" ⟨fun _ => .ok ⟨some 42, 42⟩, 6, []⟩
        ⟨"tmp", 3, false⟩).2.2.2 :=
  etag_move_invariance "linux" _ ⟨"tmp", 3, false⟩ _ "final" rfl

/-- C8: `get_etag_from_file` has no side effects: it leaves the world (all
file metadata, the clock, durability) unchanged and performs nothing but a
single metadata read of the queried path. -/
theorem etag_no_side_effects (w : World) (p : String) :
    (get_etag_from_file w p).1 = w ∧
    (get_etag_from_file w p).2.1 = [Event.statEv p] := by
  rw [get_etag_from_file_eq]
  exact ⟨rfl, rfl⟩

/-- C9: `uniq` yields exactly the distinct elements of its input, each once
(no duplicates), as a subsequence of the input, ordered by first occurrence
in the input. -/
theorem uniq_spec [DecidableEq α] (s : List α) :
    (uniq s).Nodup ∧ List.Sublist (uniq s) s ∧ (∀ a, a ∈ uniq s ↔ a ∈ s) ∧
    (uniq s).Pairwise fun a b => s.indexOf a < s.indexOf b := by
  refine ⟨uniqAux_nodup s [], uniqAux_sublist s [], ?_, uniqAux_pairwise_indexOf s []⟩
  intro a
  rw [uniq, uniqAux_mem]
  simp

/-- C10: a `cached_property`-wrapped function is invoked at most once per
object (provided its value is not the `_missing` sentinel and the attribute
starts absent): the first access invokes it and stores the value in the
instance `__dict__`; every later access returns that stored value without
invoking, and any number of accesses performs at most one invocation. -/
theorem cached_property_memoizes (cp : CachedProperty α β) (obj : α)
    (d : InstanceDict β) (hfunc : cp.func obj ≠ .sentinel) (hd : d cp.name = none) :
    cpGet cp obj d = (dictInsert d cp.name (cp.func obj), cp.func obj, true) ∧
    cpGet cp obj (cpGet cp obj d).1 = ((cpGet cp obj d).1, cp.func obj, false) ∧
    (∀ n, cpAccessN cp obj n (cpGet cp obj d).1 = ((cpGet cp obj d).1, 0)) ∧
    (∀ n, (cpAccessN cp obj n d).2 ≤ 1) := by
  obtain ⟨b, hb⟩ : ∃ b, cp.func obj = .value b := by
    cases hv : cp.func obj with
    | sentinel => exact absurd hv hfunc
    | value b => exact ⟨b, rfl⟩
  have h1 := cpGet_missing cp obj d hd
  have hstored : (cpGet cp obj d).1 cp.name = some (.value b) := by
    rw [h1]
    simp only
    rw [dictInsert_self, hb]
  have h2 : cpGet cp obj (cpGet cp obj d).1 = ((cpGet cp obj d).1, cp.func obj, false) := by
    rw [cpGet_stored cp obj _ b hstored, hb]
  have h3 : ∀ n, cpAccessN cp obj n (cpGet cp obj d).1 = ((cpGet cp obj d).1, 0) := by
    intro n
    induction n with
    | zero => rfl
    | succ n ih =>
      rw [show cpAccessN cp obj (n + 1) (cpGet cp obj d).1
            = ((cpAccessN cp obj n (cpGet cp obj (cpGet cp obj d).1).1).1,
               (if (cpGet cp obj (cpGet cp obj d).1).2.2 then 1 else 0)
                 + (cpAccessN cp obj n (cpGet cp obj (cpGet cp obj d).1).1).2) from rfl]
      rw [h2]
      simpa using ih
  refine ⟨h1, h2, h3, ?_⟩
  intro n
  cases n with
  | zero => simp [cpAccessN]
  | succ n =>
    rw [show cpAccessN cp obj (n + 1) d
          = ((cpAccessN cp obj n (cpGet cp obj d).1).1,
             (if (cpGet cp obj d).2.2 then 1 else 0)
               + (cpAccessN cp obj n (cpGet cp obj d).1).2) from rfl]
    rw [h3 n, h1]
    simp

/-- Witness for C10 on a concrete wrapped function returning 7. -/
theorem cached_property_memoizes_witness :
    (cpGet ⟨"attr", fun _ => .value 7⟩ () (fun _ => none) =
      (dictInsert (fun _ => none) "attr" ((fun _ : Unit => StoredVal.value 7) ()),
       (fun _ : Unit => StoredVal.value 7) (), true)) ∧
    (cpGet ⟨"attr", fun _ => .value 7⟩ ()
        (cpGet ⟨"attr", fun _ => .value 7⟩ () (fun _ => none)).1 =
      ((cpGet ⟨"attr", fun _ => .value 7⟩ () (fun _ => none)).1,
       (fun _ : Unit => StoredVal.value 7) (), false)) ∧
    (∀ n, cpAccessN ⟨"attr", fun _ => .value 7⟩ () n
        (cpGet ⟨"attr", fun _ => .value 7⟩ () (fun _ => none)).1 =
      ((cpGet ⟨"attr", fun _ => .value 7⟩ () (fun _ => none)).1, 0)) ∧
    (∀ n, (cpAccessN ⟨"attr", fun _ => .value 7⟩ () n (fun _ => none)).2 ≤ 1) :=
  cached_property_memoizes ⟨"attr", fun _ => StoredVal.value (7 : Nat)⟩ ()
    (fun _ => none) (by simp) rfl

end VdirsyncerUtils
